import Mathlib

/-!
Verification of the extraction-normalization-serialization pipeline of the
apple-music-extract repository: the string normalizer (`src/normalizer.js`),
the error classifier and streaming extraction runner (`src/extractor.js`),
the `|||` record parser, and the CSV/terminal serializer (`src/csv-writer.js`
and its later snapshot).  JavaScript strings are modelled as Lean `String`
(a list of characters), JS objects with fixed fields as structures, possibly
absent values as `Option`, and the event-driven stream consumption of the
runner as a fold over the list of emitted lines.
-/

/-- Characters treated as whitespace by JavaScript's `String.prototype.trim`:
tab, LF, VT, FF, CR, space, NBSP, the Unicode space separators, the line and
paragraph separators and the BOM. -/
def isJsWhitespace (c : Char) : Bool :=
  c = ' ' || c = '\t' || c = '\n' || c = '\x0d' || c = '\x0b' || c = '\x0c' ||
  c = '\u00A0' || c = '\u1680' || c = '\u2000' || c = '\u2001' || c = '\u2002' ||
  c = '\u2003' || c = '\u2004' || c = '\u2005' || c = '\u2006' || c = '\u2007' ||
  c = '\u2008' || c = '\u2009' || c = '\u200A' || c = '\u2028' || c = '\u2029' ||
  c = '\u202F' || c = '\u205F' || c = '\u3000' || c = '\uFEFF'

/-- Strip leading and trailing JS whitespace from a character list. -/
def trimChars (l : List Char) : List Char :=
  ((l.dropWhile isJsWhitespace).reverse.dropWhile isJsWhitespace).reverse

/-- Models `value.trim()` from JavaScript. -/
def jsTrim (s : String) : String :=
  ⟨trimChars s.data⟩

/-- Models `value.toLocaleLowerCase()` / `value.toLowerCase()`; lower-casing is
modelled character-wise (ASCII case mapping). -/
def jsToLowerCase (s : String) : String :=
  ⟨s.data.map Char.toLower⟩

/-- Models `Array.prototype.join(sep)`. -/
def joinSep (sep : String) : List String → String
  | [] => ""
  | [x] => x
  | x :: y :: ys => x ++ sep ++ joinSep sep (y :: ys)

/-- Helper for `strIncludes`: does `pat` occur as a contiguous run in `l`? -/
def hasSubstr (pat : List Char) : List Char → Bool
  | [] => pat.isEmpty
  | c :: cs => pat.isPrefixOf (c :: cs) || hasSubstr pat cs

/-- Models `s.includes(pat)` from JavaScript. -/
def strIncludes (s pat : String) : Bool :=
  hasSubstr pat.data s.data

/-- Splitting a character list on the non-empty separator `s0 :: srest`,
leftmost match first.  The first argument is fuel, always called with at least
the length of the list (each step consumes at least one character). -/
def splitOnChars (s0 : Char) (srest : List Char) : Nat → List Char → List (List Char)
  | 0, _ => [[]]
  | _ + 1, [] => [[]]
  | fuel + 1, c :: cs =>
    if (s0 :: srest).isPrefixOf (c :: cs) then
      [] :: splitOnChars s0 srest fuel (cs.drop srest.length)
    else
      match splitOnChars s0 srest fuel cs with
      | [] => [[c]]
      | f :: fs => (c :: f) :: fs

/-- Models `s.split(sep)` from JavaScript for a non-empty string separator
(the only form the source uses: `'|||'` and `'_'`). -/
def jsSplit (s sep : String) : List String :=
  match sep.data with
  | [] => [s]
  | c :: cs => (splitOnChars c cs s.data.length s.data).map (fun f => (⟨f⟩ : String))

/- ## Normalizer (`src/normalizer.js`, `createNormalizer`) -/

/-- Options accepted by `createNormalizer({noTrim, sort})`. -/
structure NormOptions where
  noTrim : Bool := false
  sort : Bool := false
deriving DecidableEq, Repr

/-- State of a normalizer instance: the two captured options together with the
`seen` Map, modelled as an association list in insertion order (JS `Map`
preserves insertion order, and `set` is only called on fresh keys). -/
structure Normalizer where
  noTrim : Bool
  sort : Bool
  seen : List (String × String)
deriving DecidableEq, Repr

/-- Models `createNormalizer(options)`: captures the options and starts with an
empty `seen` map. -/
def createNormalizer (options : NormOptions) : Normalizer :=
  { noTrim := options.noTrim, sort := options.sort, seen := [] }

/-- The value preprocessing performed at the top of `add`: trim unless
`noTrim`. -/
def procValue (noTrim : Bool) (v : String) : String :=
  if noTrim then v else jsTrim v

/-- Models `add(value)` of a normalizer instance: trims unless `noTrim`,
rejects empty results, computes the locale-lowercased key, stores the
post-trim value under a fresh key and reports whether the value was new. -/
def Normalizer.add (n : Normalizer) (value : String) : Bool × Normalizer :=
  let value := procValue n.noTrim value
  if value = "" then
    (false, n)
  else
    let key := jsToLowerCase value
    match n.seen.lookup key with
    | some _ => (false, n)
    | none => (true, { n with seen := n.seen ++ [(key, value)] })

/-- Models the `count` getter (`seen.size`). -/
def Normalizer.count (n : Normalizer) : Nat :=
  n.seen.length

/-- Comparator modelling the `(a, b) => a.localeCompare(b)` sort callback:
locale collation is modelled by the lexicographic order on strings. -/
def localeLe (a b : String) : Bool :=
  decide (a ≤ b)

/-- Models `getUniqueValues()` / `values()`: the stored display values in
insertion order, sorted with the locale comparator when `sort` is set
(JS `Array.prototype.sort` is stable, modelled by `mergeSort`). -/
def Normalizer.getUniqueValues (n : Normalizer) : List String :=
  let values := n.seen.map Prod.snd
  if n.sort then values.mergeSort localeLe else values

/-- Feed a list of raw values through `add`, as the `normalizeArtists` /
`normalizePlaylists` loops do. -/
def Normalizer.addAll (n : Normalizer) (l : List String) : Normalizer :=
  l.foldl (fun n v => (n.add v).2) n

/-- Models `normalizeArtists(rawArtists, options)` (and equally
`normalizePlaylists`): a fresh normalizer fed every raw value. -/
def normalizeValues (l : List String) (options : NormOptions) : List String :=
  ((createNormalizer options).addAll l).getUniqueValues

/- ## Specification-side descriptions of the normalizer output -/

/-- First-occurrence filtering by case-folded key: keeps each value whose key
is not among `ks` nor among the keys of earlier kept values.  This is the
spec's "first-insertion order of distinct case-folded keys". -/
def dedupByKey (ks : List String) : List String → List String
  | [] => []
  | v :: vs =>
    if jsToLowerCase v ∈ ks then dedupByKey ks vs
    else v :: dedupByKey (jsToLowerCase v :: ks) vs

/-- The processed values that survive `add`'s empty check: each input trimmed
(unless `noTrim`) with empty results dropped. -/
def procVals (noTrim : Bool) (l : List String) : List String :=
  (l.map (procValue noTrim)).filter (fun v => v ≠ "")

/- ## Error classifier (`src/extractor.js`, `detectErrorType`) -/

/-- Exit code constants from `ExitCodes`. -/
def ExitCodes.SUCCESS : Nat := 0

/-- Exit code for Music.app being unavailable (`MUSIC_UNAVAILABLE`). -/
def ExitCodes.MUSIC_UNAVAILABLE : Nat := 2

/-- Exit code for automation permission denial (`PERMISSION_DENIED`). -/
def ExitCodes.PERMISSION_DENIED : Nat := 3

/-- Exit code for any other scripting failure (`APPLESCRIPT_ERROR`). -/
def ExitCodes.APPLESCRIPT_ERROR : Nat := 4

/-- Exit code for a failed CSV write (`FILE_WRITE_ERROR`). -/
def ExitCodes.FILE_WRITE_ERROR : Nat := 5

/-- The permission/authorization test of `detectErrorType`, applied to the
already lower-cased diagnostic text. -/
def permissionHit (lowerStderr : String) : Bool :=
  strIncludes lowerStderr "not authorized" ||
  strIncludes lowerStderr "assistive access" ||
  strIncludes lowerStderr "user canceled" ||
  strIncludes lowerStderr "erraeventnotpermitted" ||
  strIncludes lowerStderr "-1743"

/-- The Music.app-unavailable test of `detectErrorType`, applied to the
already lower-cased diagnostic text. -/
def availabilityHit (lowerStderr : String) : Bool :=
  strIncludes lowerStderr "application isn\x27t running" ||
  strIncludes lowerStderr "application \"music\" can\x27t be found" ||
  strIncludes lowerStderr "connection is invalid" ||
  strIncludes lowerStderr "couldn\x27t launch"

/-- Models `detectErrorType(stderr)`: lower-case the diagnostics, then apply
the ordered rule set (permission patterns, then availability patterns, then
the default). -/
def detectErrorType (stderr : String) : Nat :=
  let lowerStderr := jsToLowerCase stderr
  if permissionHit lowerStderr then ExitCodes.PERMISSION_DENIED
  else if availabilityHit lowerStderr then ExitCodes.MUSIC_UNAVAILABLE
  else ExitCodes.APPLESCRIPT_ERROR

/- ## Extraction runner (`runAppleScript` in `src/extractor.js` and the later
`csv-writer.js` snapshot): the readline / close event handling is modelled as
a fold over the list of lines emitted by the child process. -/

/-- Mutable state of one `runAppleScript` invocation: the accumulated lines,
the line counter, the truncation flag, whether `proc.kill` was requested, and
the trace of `onLine` callback invocations as (count, line) pairs. -/
structure StreamState where
  lines : List String
  lineCount : Nat
  limitReached : Bool
  killed : Bool
  onLineCalls : List (Nat × String)
deriving DecidableEq, Repr

/-- The fresh state at the start of a run. -/
def initStreamState : StreamState :=
  { lines := [], lineCount := 0, limitReached := false, killed := false,
    onLineCalls := [] }

/-- Models the `rl.on('line', ...)` handler: ignore lines after truncation,
otherwise count and append the line, record the `onLine` call, and when a
(truthy) `limit` is reached mark truncation and request child termination. -/
def handleLine (limit : Option Nat) (s : StreamState) (line : String) : StreamState :=
  if s.limitReached then s
  else
    let lineCount := s.lineCount + 1
    let hitLimit := match limit with
      | some l => decide (l ≠ 0) && decide (lineCount ≥ l)
      | none => false
    { lines := s.lines ++ [line]
      lineCount := lineCount
      limitReached := hitLimit
      killed := s.killed || hitLimit
      onLineCalls := s.onLineCalls ++ [(lineCount, line)] }

/-- All line events of a run, processed in order. -/
def processStream (limit : Option Nat) (stream : List String) : StreamState :=
  stream.foldl (handleLine limit) initStreamState

/-- The value `runAppleScript` resolves with. -/
structure RunResult where
  lines : List String
  exitCode : Nat
  error : Option String
deriving DecidableEq, Repr

/-- Models the `proc.on('close', ...)` resolution of `runAppleScript`, given
the full line stream the child produced, its close code (`none` when killed by
a signal) and the accumulated stderr text:
truncation wins (Success), then a clean exit (Success), otherwise the stderr
text is classified. -/
def runAppleScriptModel (limit : Option Nat) (stream : List String)
    (closeCode : Option Int) (stderr : String) : RunResult :=
  let s := processStream limit stream
  if s.limitReached then
    { lines := s.lines, exitCode := ExitCodes.SUCCESS, error := none }
  else if closeCode = some 0 then
    { lines := s.lines, exitCode := ExitCodes.SUCCESS, error := none }
  else
    { lines := s.lines, exitCode := detectErrorType stderr,
      error := some (jsTrim stderr) }

/-- Spec-side 1-based numbering of the lines delivered to `onLine`. -/
def numberFrom (i : Nat) : List String → List (Nat × String)
  | [] => []
  | x :: xs => (i, x) :: numberFrom (i + 1) xs

/- ## Record parser (`extractTracks` / `extractPlaylistTracks`) -/

/-- A parsed track record (`title|||artist|||album_artist|||album`). -/
structure Track where
  title : String
  artist : String
  albumArtist : String
  album : String
deriving DecidableEq, Repr

/-- A parsed playlist-track record (`playlist|||track|||artist`). -/
structure PlaylistTrack where
  playlist : String
  track : String
  artist : String
deriving DecidableEq, Repr

/-- Models `line.split('|||')`. -/
def splitRecordLine (line : String) : List String :=
  jsSplit line "|||"

/-- Positional field access with the `|| ''` default of the destructuring in
`extractTracks` / `extractPlaylistTracks`: a missing (or empty) field becomes
the empty string. -/
def fieldAt (parts : List String) (i : Nat) : String :=
  (parts[i]?).getD ""

/-- The generic record parser of the spec: the first `k` split fields of a
line, missing trailing fields defaulting to the empty string. -/
def parseFields (line : String) (k : Nat) : List String :=
  (List.range k).map (fieldAt (splitRecordLine line))

/-- Models the per-line record construction in `extractTracks`. -/
def parseTrackLine (line : String) : Track :=
  let parts := splitRecordLine line
  { title := fieldAt parts 0, artist := fieldAt parts 1,
    albumArtist := fieldAt parts 2, album := fieldAt parts 3 }

/-- Models the per-line record construction in `extractPlaylistTracks`. -/
def parsePlaylistTrackLine (line : String) : PlaylistTrack :=
  let parts := splitRecordLine line
  { playlist := fieldAt parts 0, track := fieldAt parts 1,
    artist := fieldAt parts 2 }

/-- Spec-side description of the parsed field list: the split fields truncated
to `k` entries, padded with empty strings when the line yields fewer. -/
def padTruncate (k : Nat) (parts : List String) : List String :=
  parts.take k ++ List.replicate (k - parts.length) ""

/- ## Artist extraction with album-artist fallback
(`normalizeArtistsFromTracks` in `src/normalizer.js`) -/

/-- Options of `normalizeArtistsFromTracks`. -/
structure ArtistOptions where
  fallbackAlbumArtist : Bool := false
  noTrim : Bool := false
  sort : Bool := false
deriving DecidableEq, Repr

/-- The artist chosen for one track: the album artist when the fallback is
enabled and the artist field is falsy or blank after trimming, otherwise the
artist field. -/
def chooseArtist (fallbackAlbumArtist : Bool) (t : Track) : String :=
  if fallbackAlbumArtist ∧ (t.artist = "" ∨ jsTrim t.artist = "") then
    t.albumArtist
  else t.artist

/-- One iteration of the `normalizeArtistsFromTracks` loop: add the chosen
artist when it is truthy (non-empty). -/
def artistsStep (fallbackAlbumArtist : Bool) (n : Normalizer) (t : Track) : Normalizer :=
  let artist := chooseArtist fallbackAlbumArtist t
  if artist = "" then n else (n.add artist).2

/-- Models `normalizeArtistsFromTracks(tracks, options)`. -/
def normalizeArtistsFromTracks (tracks : List Track) (options : ArtistOptions) : List String :=
  (tracks.foldl (artistsStep options.fallbackAlbumArtist)
    (createNormalizer { noTrim := options.noTrim, sort := options.sort })).getUniqueValues

/- ## CSV serializer (`src/csv-writer.js`; the functions suffixed `F` come
from the later snapshot of the same file, which formats headers for display) -/

/-- Models the `str.replace(/"/g, '""')` quote doubling. -/
def doubleQuotesChars (l : List Char) : List Char :=
  l.flatMap (fun c => if c = '"' then ['"', '"'] else [c])

/-- The `/[",\n\r]/.test(str)` check of `escapeField`. -/
def needsQuoting (s : String) : Bool :=
  s.data.any (fun c => c = '"' || c = ',' || c = '\n' || c = '\x0d')

/-- Models `escapeField(value)`: `null`/`undefined` (here `none`) becomes the
empty string; a field containing a comma, quote, LF or CR is wrapped in double
quotes with internal quotes doubled; anything else is emitted verbatim. -/
def escapeField (value : Option String) : String :=
  match value with
  | none => ""
  | some s =>
    if needsQuoting s then "\"" ++ (⟨doubleQuotesChars s.data⟩ : String) ++ "\""
    else s

/-- A CSV row object: a map from column name to a possibly absent field. -/
def RowObj : Type := String → Option String

/-- One data line of `generateMultiColumnCSV`: each named field escaped and
comma-joined. -/
def rowLine (headers : List String) (row : RowObj) : String :=
  joinSep "," (headers.map (fun h => escapeField (row h)))

/-- Models `generateMultiColumnCSV(rows, headers)` (the snapshot without
header formatting): escaped header line, then one line per record, newline
joined with a trailing newline. -/
def generateMultiColumnCSV (rows : List RowObj) (headers : List String) : String :=
  let headerLine := joinSep "," (headers.map (fun h => escapeField (some h)))
  let dataLines := rows.map (rowLine headers)
  joinSep "\n" (headerLine :: dataLines) ++ "\n"

/-- Models `generateSingleColumnCSV(values, header)` of the earlier
`csv-writer.js` snapshot: raw header line, then one escaped value per line. -/
def generateSingleColumnCSV (values : List String) (header : String) : String :=
  joinSep "\n" (header :: values.map (fun v => escapeField (some v))) ++ "\n"

/-- Models `capitalize(str)` of the later csv-writer snapshot: upper-case the
first character, keep the rest. -/
def capitalize (s : String) : String :=
  match s.data with
  | [] => s
  | c :: cs => ⟨Char.toUpper c :: cs⟩

/-- Models `formatHeader(header)`: split on underscores, capitalize each
token, rejoin with spaces. -/
def formatHeader (header : String) : String :=
  joinSep " " ((jsSplit header "_").map capitalize)

/-- Models `generateSingleColumnCSV` of the later snapshot: formatted header
line, then one escaped value per line. -/
def generateSingleColumnCSVF (values : List String) (header : String) : String :=
  joinSep "\n" (formatHeader header :: values.map (fun v => escapeField (some v))) ++ "\n"

/-- Models `generateMultiColumnCSV` of the later snapshot: header line of
escaped formatted column names, then the data lines. -/
def generateMultiColumnCSVF (rows : List RowObj) (headers : List String) : String :=
  let headerLine := joinSep "," (headers.map (fun h => escapeField (some (formatHeader h))))
  let dataLines := rows.map (rowLine headers)
  joinSep "\n" (headerLine :: dataLines) ++ "\n"

/-- Models `generateSingleColumnData(values)`: data lines only, no header. -/
def generateSingleColumnData (values : List String) : String :=
  joinSep "\n" (values.map (fun v => escapeField (some v))) ++ "\n"

/-- Models `generateMultiColumnData(rows, headers)`: data lines only. -/
def generateMultiColumnData (rows : List RowObj) (headers : List String) : String :=
  joinSep "\n" (rows.map (rowLine headers)) ++ "\n"

/-- One terminal line of `generateColorizedMultiColumn`: every named field
(defaulting to the empty string) coloured by its column's colour function and
joined by the decorative separator.  The chalk colour functions and the
rendered separator depend on the terminal, so they are parameters. -/
def colorRow (color : String → String → String) (sep : String)
    (headers : List String) (row : RowObj) : String :=
  joinSep sep (headers.map (fun h => color h ((row h).getD "")))

/-- Models `generateColorizedMultiColumn(rows, headers)`: one coloured line
per record, newline joined with a trailing newline, and no header line. -/
def generateColorizedMultiColumn (color : String → String → String) (sep : String)
    (rows : List RowObj) (headers : List String) : String :=
  joinSep "\n" (rows.map (colorRow color sep headers)) ++ "\n"

/- ## RFC4180 comma splitting (specification-side, used to state the
round-trip property: "re-splitting each data line on commas (respecting
RFC4180 quoting)"; this operation is not part of the source). -/

/-- Character-level state machine splitting one CSV line on commas while
respecting RFC4180 quoting.  State 0: outside quotes; state 1: inside quotes;
state 2: inside quotes having just read a `"` (which either escapes a quote
or closes the quoted section). -/
def csvSplitAux : List Char → Nat → List Char → List String → List String
  | [], _, field, acc => acc ++ [(⟨field⟩ : String)]
  | c :: cs, st, field, acc =>
    if st = 1 then
      if c = '"' then csvSplitAux cs 2 field acc
      else csvSplitAux cs 1 (field ++ [c]) acc
    else if st = 2 then
      if c = '"' then csvSplitAux cs 1 (field ++ ['"']) acc
      else if c = ',' then csvSplitAux cs 0 [] (acc ++ [(⟨field⟩ : String)])
      else csvSplitAux cs 0 (field ++ [c]) acc
    else
      if c = ',' then csvSplitAux cs 0 [] (acc ++ [(⟨field⟩ : String)])
      else if c = '"' then csvSplitAux cs 1 field acc
      else csvSplitAux cs 0 (field ++ [c]) acc

/-- Split one CSV data line on commas, respecting RFC4180 quoting. -/
def csvSplitLine (line : String) : List String :=
  csvSplitAux line.data 0 [] []

/- ## Supporting lemmas: lookup and key bookkeeping -/

/-- A `lookup` miss is exactly the absence of the key. -/
theorem lookup_eq_none_iff (l : List (String × String)) (k : String) :
    l.lookup k = none ↔ k ∉ l.map Prod.fst := by
  induction l with
  | nil => simp
  | cons p l ih =>
    obtain ⟨a, b⟩ := p
    by_cases hk : k = a
    · subst hk
      simp [List.lookup_cons]
    · simpa [List.lookup_cons, beq_false_of_ne hk, hk] using ih

/-- A successful `lookup` witnesses key membership. -/
theorem mem_keys_of_lookup_eq_some {l : List (String × String)} {k v : String}
    (h : l.lookup k = some v) : k ∈ l.map Prod.fst := by
  by_contra hk
  rw [← lookup_eq_none_iff] at hk
  rw [h] at hk
  exact Option.noConfusion hk

/-- `dedupByKey` only consults the key list through membership. -/
theorem dedupByKey_congr (vs : List String) : ∀ (ks₁ ks₂ : List String),
    (∀ x, x ∈ ks₁ ↔ x ∈ ks₂) → dedupByKey ks₁ vs = dedupByKey ks₂ vs := by
  induction vs with
  | nil => intro ks₁ ks₂ _; rfl
  | cons v vs ih =>
    intro ks₁ ks₂ h
    by_cases hv : jsToLowerCase v ∈ ks₁
    · rw [dedupByKey, dedupByKey, if_pos hv, if_pos ((h _).mp hv)]
      exact ih ks₁ ks₂ h
    · rw [dedupByKey, dedupByKey, if_neg hv, if_neg (fun hc => hv ((h _).mpr hc))]
      refine congrArg (v :: ·) (ih _ _ ?_)
      intro x
      simp [h x]

/-- `add` does not change the captured options. -/
theorem add_noTrim (n : Normalizer) (v : String) : ((n.add v).2).noTrim = n.noTrim := by
  rw [Normalizer.add]
  by_cases h : procValue n.noTrim v = ""
  · simp [h]
  · simp only [h, if_neg h]
    cases hl : n.seen.lookup (jsToLowerCase (procValue n.noTrim v)) <;> simp [hl]

/-- Characterization of the map built by a run of `add` calls: the existing
entries followed by the first occurrence of each fresh case-folded key among
the surviving processed values. -/
theorem addAll_seen (l : List String) : ∀ (n : Normalizer),
    (n.addAll l).seen =
      n.seen ++ (dedupByKey (n.seen.map Prod.fst) (procVals n.noTrim l)).map
        (fun v => (jsToLowerCase v, v)) := by
  induction l with
  | nil => intro n; simp [Normalizer.addAll, procVals, dedupByKey]
  | cons v l ih =>
    intro n
    have hstep : n.addAll (v :: l) = ((n.add v).2).addAll l := by
      simp [Normalizer.addAll]
    rw [hstep]
    by_cases hempty : procValue n.noTrim v = ""
    · have hadd : (n.add v).2 = n := by
        rw [Normalizer.add]
        simp [hempty]
      rw [hadd, ih n]
      have : procVals n.noTrim (v :: l) = procVals n.noTrim l := by
        simp [procVals, hempty]
      rw [this]
    · have hproc : procVals n.noTrim (v :: l) = procValue n.noTrim v :: procVals n.noTrim l := by
        simp [procVals, hempty]
      cases hl : n.seen.lookup (jsToLowerCase (procValue n.noTrim v)) with
      | some d =>
        have hadd : (n.add v).2 = n := by
          rw [Normalizer.add]
          simp only [if_neg hempty, hl]
        have hkmem : jsToLowerCase (procValue n.noTrim v) ∈ n.seen.map Prod.fst :=
          mem_keys_of_lookup_eq_some hl
        rw [hadd, ih n, hproc, dedupByKey, if_pos hkmem]
      | none =>
        have hadd : (n.add v).2 =
            { n with seen := n.seen ++ [(jsToLowerCase (procValue n.noTrim v), procValue n.noTrim v)] } := by
          rw [Normalizer.add]
          simp only [if_neg hempty, hl]
        have hkmem : jsToLowerCase (procValue n.noTrim v) ∉ n.seen.map Prod.fst := by
          rw [← lookup_eq_none_iff]; exact hl
        rw [hadd, ih]
        rw [hproc, dedupByKey, if_neg hkmem]
        have hd : dedupByKey (List.map Prod.fst n.seen ++ [jsToLowerCase (procValue n.noTrim v)])
            (procVals n.noTrim l) =
            dedupByKey (jsToLowerCase (procValue n.noTrim v) :: List.map Prod.fst n.seen)
              (procVals n.noTrim l) :=
          dedupByKey_congr _ _ _ (fun x => by simp [or_comm])
        simp [hd]

/-- The output of a fresh normalizer fed a value list, in closed form. -/
theorem normalizeValues_eq (l : List String) (options : NormOptions) :
    normalizeValues l options =
      if options.sort then
        (dedupByKey [] (procVals options.noTrim l)).mergeSort localeLe
      else dedupByKey [] (procVals options.noTrim l) := by
  have h := addAll_seen l (createNormalizer options)
  rw [normalizeValues, Normalizer.getUniqueValues]
  have hn : ((createNormalizer options).addAll l).sort = options.sort := by
    have : ∀ (m : List String) (n : Normalizer), (n.addAll m).sort = n.sort := by
      intro m
      induction m with
      | nil => intro n; rfl
      | cons v m ih =>
        intro n
        have hstep : n.addAll (v :: m) = ((n.add v).2).addAll m := by
          simp [Normalizer.addAll]
        rw [hstep, ih]
        rw [Normalizer.add]
        by_cases hv : procValue n.noTrim v = ""
        · simp [hv]
        · simp only [if_neg hv]
          cases hl : n.seen.lookup (jsToLowerCase (procValue n.noTrim v)) <;> simp [hl]
    exact this l _
  rw [hn, h]
  simp only [createNormalizer, List.nil_append, List.map_map, List.map_nil]
  have hid : (Prod.snd ∘ fun v : String => (jsToLowerCase v, v)) = id := rfl
  rw [hid, List.map_id]

/- ## Trimming is idempotent -/

/-- The head of a `dropWhile` result fails the predicate. -/
theorem dropWhile_head_not {α : Type} (p : α → Bool) (l : List α) :
    ∀ c cs, l.dropWhile p = c :: cs → p c = false := by
  induction l with
  | nil => intro c cs h; exact absurd h (by simp)
  | cons a l ih =>
    intro c cs h
    by_cases ha : p a
    · rw [List.dropWhile_cons_of_pos ha] at h
      exact ih c cs h
    · rw [List.dropWhile_cons_of_neg (by simpa using ha)] at h
      cases h
      simpa using ha

/-- `dropWhile` is the identity when the head already fails the predicate. -/
theorem dropWhile_eq_self_of_head {α : Type} (p : α → Bool) (l : List α)
    (h : ∀ c cs, l = c :: cs → p c = false) : l.dropWhile p = l := by
  cases l with
  | nil => rfl
  | cons c cs => exact List.dropWhile_cons_of_neg (by simp [h c cs rfl])

/-- Trimming both ends is idempotent. -/
theorem trimChars_idem (l : List Char) : trimChars (trimChars l) = trimChars l := by
  set A := l.dropWhile isJsWhitespace with hA
  set B := A.reverse.dropWhile isJsWhitespace with hB
  have htrim : trimChars l = B.reverse := rfl
  obtain ⟨t, ht⟩ := List.dropWhile_suffix (l := A.reverse) (p := isJsWhitespace)
  have hArev : A = B.reverse ++ t.reverse := by
    have := congrArg List.reverse ht
    simpa [List.reverse_append] using this.symm
  have hstep1 : B.reverse.dropWhile isJsWhitespace = B.reverse := by
    refine dropWhile_eq_self_of_head _ _ ?_
    intro c cs hc
    have hAc : A = c :: (cs ++ t.reverse) := by rw [hArev, hc]; simp
    exact dropWhile_head_not isJsWhitespace l c _ (by rw [← hA, hAc])
  have hstep2 : B.dropWhile isJsWhitespace = B := by
    refine dropWhile_eq_self_of_head _ _ ?_
    intro c cs hc
    exact dropWhile_head_not isJsWhitespace A.reverse c cs (by rw [← hB, hc])
  show (((trimChars l).dropWhile isJsWhitespace).reverse.dropWhile isJsWhitespace).reverse = trimChars l
  rw [htrim, hstep1, List.reverse_reverse, hstep2]

/-- `jsTrim` is idempotent. -/
theorem jsTrim_idem (s : String) : jsTrim (jsTrim s) = jsTrim s :=
  congrArg String.mk (trimChars_idem s.data)

/-- The `add` preprocessing is idempotent. -/
theorem procValue_idem (noTrim : Bool) (v : String) :
    procValue noTrim (procValue noTrim v) = procValue noTrim v := by
  cases noTrim <;> simp [procValue, jsTrim_idem]

/- ## Facts about the processed value list and the dedup description -/

/-- Every survivor of processing is non-empty and fixed by reprocessing. -/
theorem mem_procVals {noTrim : Bool} {l : List String} {v : String}
    (h : v ∈ procVals noTrim l) : v ≠ "" ∧ procValue noTrim v = v := by
  rw [procVals] at h
  obtain ⟨hmem, hne⟩ := List.mem_filter.mp h
  obtain ⟨u, _, hu⟩ := List.mem_map.mp hmem
  refine ⟨by simpa using hne, ?_⟩
  rw [← hu]
  exact procValue_idem noTrim u

/-- Processing a list of non-empty, processing-stable values changes
nothing. -/
theorem procVals_stable {noTrim : Bool} {m : List String}
    (h : ∀ v ∈ m, v ≠ "" ∧ procValue noTrim v = v) : procVals noTrim m = m := by
  induction m with
  | nil => rfl
  | cons v m ih =>
    have hv := h v (by simp)
    have hm := ih (fun u hu => h u (by simp [hu]))
    simp only [procVals, ne_eq, decide_not] at hm ⊢
    simp only [List.map_cons, List.filter_cons, hv.2]
    simp [hv.1, hm]

/-- Deduplicated values come from the input list. -/
theorem mem_dedupByKey {vs : List String} : ∀ {ks v}, v ∈ dedupByKey ks vs → v ∈ vs := by
  induction vs with
  | nil => intro ks v h; simp [dedupByKey] at h
  | cons u vs ih =>
    intro ks v h
    rw [dedupByKey] at h
    by_cases hu : jsToLowerCase u ∈ ks
    · rw [if_pos hu] at h
      exact List.mem_cons_of_mem u (ih h)
    · rw [if_neg hu] at h
      rcases List.mem_cons.mp h with rfl | h
      · exact List.mem_cons_self v vs
      · exact List.mem_cons_of_mem u (ih h)

/-- The keys of a deduplicated list are distinct and avoid the excluded
keys. -/
theorem dedupByKey_keys_nodup_fresh (vs : List String) : ∀ ks,
    ((dedupByKey ks vs).map jsToLowerCase).Nodup ∧
      ∀ k ∈ (dedupByKey ks vs).map jsToLowerCase, k ∉ ks := by
  induction vs with
  | nil => intro ks; simp [dedupByKey]
  | cons v vs ih =>
    intro ks
    rw [dedupByKey]
    by_cases hv : jsToLowerCase v ∈ ks
    · rw [if_pos hv]
      exact ih ks
    · rw [if_neg hv]
      obtain ⟨hnd, hfresh⟩ := ih (jsToLowerCase v :: ks)
      refine ⟨?_, ?_⟩
      · rw [List.map_cons, List.nodup_cons]
        exact ⟨fun hc => (hfresh _ hc) (List.mem_cons_self _ _), hnd⟩
      · intro k hk
        rw [List.map_cons, List.mem_cons] at hk
        rcases hk with rfl | hk
        · exact hv
        · exact fun hc => (hfresh k hk) (List.mem_cons_of_mem _ hc)

/-- Deduplication changes nothing on a list whose keys are distinct and avoid
the excluded keys. -/
theorem dedupByKey_of_fresh {m : List String} : ∀ {ks},
    (m.map jsToLowerCase).Nodup → (∀ v ∈ m, jsToLowerCase v ∉ ks) →
    dedupByKey ks m = m := by
  induction m with
  | nil => intro ks _ _; rfl
  | cons v m ih =>
    intro ks hnd hfresh
    rw [List.map_cons, List.nodup_cons] at hnd
    rw [dedupByKey, if_neg (hfresh v (List.mem_cons_self _ _))]
    refine congrArg (v :: ·) (ih hnd.2 ?_)
    intro u hu
    rw [List.mem_cons]
    rintro (he | hks)
    · exact hnd.1 (he ▸ List.mem_map_of_mem jsToLowerCase hu)
    · exact hfresh u (List.mem_cons_of_mem _ hu) hks

/-- The locale comparator is transitive. -/
theorem localeLe_trans : ∀ a b c : String,
    localeLe a b = true → localeLe b c = true → localeLe a c = true := by
  intro a b c hab hbc
  rw [localeLe, decide_eq_true_iff] at hab hbc ⊢
  exact le_trans hab hbc

/-- The locale comparator is total. -/
theorem localeLe_total : ∀ a b : String, (localeLe a b || localeLe b a) = true := by
  intro a b
  rw [localeLe, localeLe, Bool.or_eq_true, decide_eq_true_iff, decide_eq_true_iff]
  exact le_total a b

/- ## Claim theorems for the normalizer ordering and idempotence -/

/-- C7: Normalization is idempotent: feeding the output of a normalizer
through a fresh normalizer with the same options reproduces it exactly — no
further deduplication, trimming change, or reordering occurs. -/
theorem normalize_idempotent (options : NormOptions) (l : List String) :
    normalizeValues (normalizeValues l options) options = normalizeValues l options := by
  have hD := normalizeValues_eq l options
  set D := dedupByKey [] (procVals options.noTrim l) with hDdef
  have hDstable : ∀ v ∈ D, v ≠ "" ∧ procValue options.noTrim v = v :=
    fun v hv => mem_procVals (mem_dedupByKey hv)
  have hDnd : (D.map jsToLowerCase).Nodup := (dedupByKey_keys_nodup_fresh _ []).1
  cases hs : options.sort with
  | false =>
    rw [hs] at hD
    simp only [Bool.false_eq_true, if_false] at hD
    rw [hD, normalizeValues_eq, hs]
    simp only [Bool.false_eq_true, if_false]
    rw [procVals_stable hDstable]
    exact dedupByKey_of_fresh hDnd (fun v _ => List.not_mem_nil _)
  | true =>
    rw [hs] at hD
    simp only [if_true] at hD
    set out := D.mergeSort localeLe with hout
    have hperm : List.Perm out D := List.mergeSort_perm D localeLe
    have houtstable : ∀ v ∈ out, v ≠ "" ∧ procValue options.noTrim v = v :=
      fun v hv => hDstable v (List.mem_mergeSort.mp hv)
    have houtnd : (out.map jsToLowerCase).Nodup :=
      ((hperm.map jsToLowerCase).symm).nodup hDnd
    have hsorted : out.Pairwise (fun a b => localeLe a b = true) :=
      List.sorted_mergeSort localeLe_trans localeLe_total D
    rw [hD, normalizeValues_eq, hs]
    simp only [if_true]
    rw [procVals_stable houtstable,
      dedupByKey_of_fresh houtnd (fun v _ => List.not_mem_nil _)]
    exact List.mergeSort_of_sorted hsorted

/-- C6: `getUniqueValues` returns the stored display values in first-insertion
order of distinct case-folded keys when `sort` is off, and, when `sort` is on,
a locale-ascending reordering (a sorted permutation) of those displays. -/
theorem getUniqueValues_order (options : NormOptions) (l : List String) :
    (options.sort = false →
      normalizeValues l options = dedupByKey [] (procVals options.noTrim l)) ∧
    (options.sort = true →
      List.Perm (normalizeValues l options) (dedupByKey [] (procVals options.noTrim l)) ∧
      (normalizeValues l options).Pairwise (fun a b => localeLe a b = true)) := by
  have hD := normalizeValues_eq l options
  constructor
  · intro hs
    rw [hs] at hD
    simpa using hD
  · intro hs
    rw [hs] at hD
    simp only [if_true] at hD
    rw [hD]
    exact ⟨List.mergeSort_perm _ localeLe,
      List.sorted_mergeSort localeLe_trans localeLe_total _⟩

/-- Witness for C6 at concrete inputs, one for each sort mode. -/
theorem getUniqueValues_order_witness :
    (normalizeValues ["b", "A"] { noTrim := false, sort := false } =
      dedupByKey [] (procVals false ["b", "A"])) ∧
    (List.Perm (normalizeValues ["b", "A"] { noTrim := false, sort := true })
        (dedupByKey [] (procVals false ["b", "A"])) ∧
      (normalizeValues ["b", "A"] { noTrim := false, sort := true }).Pairwise
        (fun a b => localeLe a b = true)) :=
  ⟨(getUniqueValues_order { noTrim := false, sort := false } ["b", "A"]).1 rfl,
   (getUniqueValues_order { noTrim := false, sort := true } ["b", "A"]).2 rfl⟩

/- ## Claim C1: first occurrence wins -/

/-- Looking up a key among the deduplicated entries finds the first processed
value with that case-folded key. -/
theorem lookup_dedup_entries (k : String) : ∀ (vs ks : List String), k ∉ ks →
    ((dedupByKey ks vs).map (fun v => (jsToLowerCase v, v))).lookup k =
      vs.find? (fun v => jsToLowerCase v == k) := by
  intro vs
  induction vs with
  | nil => intro ks _; rfl
  | cons v vs ih =>
    intro ks hk
    rw [dedupByKey]
    by_cases hv : jsToLowerCase v ∈ ks
    · rw [if_pos hv]
      have hne : (jsToLowerCase v == k) = false :=
        beq_false_of_ne (fun he => hk (he ▸ hv))
      rw [List.find?_cons, hne]
      exact ih ks hk
    · rw [if_neg hv, List.map_cons, List.lookup_cons]
      by_cases hkey : jsToLowerCase v = k
      · rw [List.find?_cons, beq_iff_eq.mpr hkey]
        simp [hkey]
      · have hne : (jsToLowerCase v == k) = false := beq_false_of_ne hkey
        rw [List.find?_cons, hne]
        have hkk : (k == jsToLowerCase v) = false :=
          beq_false_of_ne (fun he => hkey he.symm)
        simp only [hkk]
        refine ih (jsToLowerCase v :: ks) ?_
        rw [List.mem_cons]
        rintro (he | hm)
        · exact hkey he.symm
        · exact hk hm

/-- In an association list with distinct keys, a present key owns exactly one
entry. -/
theorem filter_key_length (k : String) : ∀ (entries : List (String × String)),
    (entries.map Prod.fst).Nodup → k ∈ entries.map Prod.fst →
    (entries.filter (fun p => p.1 == k)).length = 1 := by
  intro entries
  induction entries with
  | nil => intro _ h; simp at h
  | cons p es ih =>
    intro hnd hmem
    rw [List.map_cons, List.nodup_cons] at hnd
    rw [List.filter_cons]
    rcases List.mem_cons.mp hmem with he | hm
    · have hpk : (p.1 == k) = true := beq_iff_eq.mpr he.symm
      rw [hpk]
      simp only [if_true, List.length_cons]
      have : es.filter (fun q => q.1 == k) = [] := by
        rw [List.filter_eq_nil_iff]
        intro q hq
        have : q.1 ∈ es.map Prod.fst := List.mem_map_of_mem Prod.fst hq
        intro hc
        exact hnd.1 (he ▸ (beq_iff_eq.mp hc) ▸ this)
      rw [this]
      rfl
    · have hpk : (p.1 == k) = false :=
        beq_false_of_ne (fun he => hnd.1 (he ▸ hm))
      rw [hpk]
      simp only [Bool.false_eq_true, if_false]
      exact ih hnd.2 hm

/-- C1: `add` trims unless `noTrim`, rejects post-trim-empty values without
storing, stores a fresh key with the post-trim casing as display value and
returns true, and returns false leaving the state untouched on a duplicate
key; consequently a list containing both "Abba" and "ABBA" produces exactly
one entry for the key "abba", displayed with the first-seen casing. -/
theorem normalizer_add_spec (n : Normalizer) (v : String) (options : NormOptions)
    (l : List String) :
    (procValue n.noTrim v = "" → n.add v = (false, n)) ∧
    (procValue n.noTrim v ≠ "" →
      (n.seen.lookup (jsToLowerCase (procValue n.noTrim v)) = none →
        n.add v = (true, { n with
          seen := n.seen ++ [(jsToLowerCase (procValue n.noTrim v), procValue n.noTrim v)] })) ∧
      (∀ d, n.seen.lookup (jsToLowerCase (procValue n.noTrim v)) = some d →
        n.add v = (false, n))) ∧
    ("Abba" ∈ l → "ABBA" ∈ l →
      ((((createNormalizer options).addAll l).seen.filter (fun p => p.1 == "abba")).length = 1 ∧
        (((createNormalizer options).addAll l).seen.lookup "abba" =
          (procVals options.noTrim l).find? (fun u => jsToLowerCase u == "abba")))) := by
  refine ⟨?_, ?_, ?_⟩
  · intro h
    rw [Normalizer.add]
    simp [h]
  · intro h
    constructor
    · intro hl
      rw [Normalizer.add]
      simp only [if_neg h, hl]
    · intro d hl
      rw [Normalizer.add]
      simp only [if_neg h, hl]
  · intro h1 h2
    have hseen : ((createNormalizer options).addAll l).seen =
        List.map (fun v => (jsToLowerCase v, v)) (dedupByKey [] (procVals options.noTrim l)) := by
      rw [addAll_seen]
      rfl
    have hAbba : procValue options.noTrim "Abba" = "Abba" := by
      cases options.noTrim
      · simp only [procValue, Bool.false_eq_true, if_false]
        decide
      · rfl
    have hAbbamem : "Abba" ∈ procVals options.noTrim l := by
      rw [procVals, List.mem_filter]
      refine ⟨?_, by decide⟩
      rw [← hAbba]
      exact List.mem_map_of_mem _ h1
    have hfind : ∃ d, (procVals options.noTrim l).find? (fun u => jsToLowerCase u == "abba") = some d := by
      rw [← Option.isSome_iff_exists, List.find?_isSome]
      exact ⟨"Abba", hAbbamem, by decide⟩
    obtain ⟨d, hd⟩ := hfind
    have hlookup : (((createNormalizer options).addAll l).seen.lookup "abba") =
        (procVals options.noTrim l).find? (fun u => jsToLowerCase u == "abba") := by
      rw [hseen]
      exact lookup_dedup_entries "abba" (procVals options.noTrim l) [] (List.not_mem_nil _)
    refine ⟨?_, hlookup⟩
    have hkeys : (((createNormalizer options).addAll l).seen.map Prod.fst).Nodup := by
      rw [hseen, List.map_map]
      have hcomp : (Prod.fst ∘ fun u : String => (jsToLowerCase u, u)) = jsToLowerCase := rfl
      rw [hcomp]
      exact (dedupByKey_keys_nodup_fresh _ []).1
    have hmem : "abba" ∈ ((createNormalizer options).addAll l).seen.map Prod.fst :=
      mem_keys_of_lookup_eq_some (by rw [hlookup]; exact hd)
    exact filter_key_length "abba" _ hkeys hmem

/-- Witness for C1: the list ["Abba", "ABBA"] with default options. -/
theorem normalizer_add_spec_witness :
    "Abba" ∈ ["Abba", "ABBA"] ∧ "ABBA" ∈ ["Abba", "ABBA"] ∧
    ((((createNormalizer { noTrim := false, sort := false }).addAll
        ["Abba", "ABBA"]).seen.filter (fun p => p.1 == "abba")).length = 1 ∧
      (((createNormalizer { noTrim := false, sort := false }).addAll
        ["Abba", "ABBA"]).seen.lookup "abba" =
        (procVals false ["Abba", "ABBA"]).find? (fun u => jsToLowerCase u == "abba"))) :=
  ⟨by decide, by decide,
    (normalizer_add_spec (createNormalizer { noTrim := false, sort := false }) ""
      { noTrim := false, sort := false } ["Abba", "ABBA"]).2.2 (by decide) (by decide)⟩

/- ## Claim C2: limit truncation in the extraction runner -/

/-- Once truncation has happened, later line events are ignored. -/
theorem foldl_handleLine_of_limitReached (limit : Option Nat) (stream : List String) :
    ∀ s : StreamState, s.limitReached = true →
    stream.foldl (handleLine limit) s = s := by
  induction stream with
  | nil => intro s _; rfl
  | cons x xs ih =>
    intro s hs
    rw [List.foldl_cons]
    have hstep : handleLine limit s x = s := by
      rw [handleLine, if_pos hs]
    rw [hstep]
    exact ih s hs

/-- Main truncation invariant: starting below a positive limit that the
remaining stream will reach, the fold stops exactly at the limit, keeping the
first `limit - lineCount` further lines, delivering exactly those to `onLine`,
and requesting child termination. -/
theorem foldl_handleLine_reaches_limit (lim : Nat) (hpos : 0 < lim) :
    ∀ (stream : List String) (s : StreamState),
    s.limitReached = false → s.lineCount < lim → lim ≤ s.lineCount + stream.length →
    (stream.foldl (handleLine (some lim)) s).lines =
        s.lines ++ stream.take (lim - s.lineCount) ∧
    (stream.foldl (handleLine (some lim)) s).limitReached = true ∧
    (stream.foldl (handleLine (some lim)) s).killed = true ∧
    (stream.foldl (handleLine (some lim)) s).onLineCalls =
        s.onLineCalls ++ numberFrom (s.lineCount + 1) (stream.take (lim - s.lineCount)) ∧
    (stream.foldl (handleLine (some lim)) s).lineCount = lim := by
  intro stream
  induction stream with
  | nil =>
    intro s _ hlt hle
    simp only [List.length_nil, Nat.add_zero] at hle
    omega
  | cons x xs ih =>
    intro s hs hlt hle
    rw [List.foldl_cons]
    by_cases hhit : s.lineCount + 1 ≥ lim
    · have heq : s.lineCount + 1 = lim := by omega
      have hstep : handleLine (some lim) s x =
          { lines := s.lines ++ [x], lineCount := s.lineCount + 1, limitReached := true,
            killed := true,
            onLineCalls := s.onLineCalls ++ [(s.lineCount + 1, x)] } := by
        rw [handleLine, if_neg (by simp [hs])]
        have h1 : (decide (lim ≠ 0) && decide (s.lineCount + 1 ≥ lim)) = true := by
          simp only [Bool.and_eq_true, decide_eq_true_iff]
          omega
        simp only [h1, Bool.or_true]
      rw [hstep, foldl_handleLine_of_limitReached _ _ _ rfl]
      have htake : lim - s.lineCount = 1 := by omega
      rw [htake]
      simp [numberFrom, heq]
    · have hlt2 : s.lineCount + 1 < lim := by omega
      have hstep : handleLine (some lim) s x =
          { lines := s.lines ++ [x], lineCount := s.lineCount + 1, limitReached := false,
            killed := s.killed,
            onLineCalls := s.onLineCalls ++ [(s.lineCount + 1, x)] } := by
        rw [handleLine, if_neg (by simp [hs])]
        have h1 : (decide (lim ≠ 0) && decide (s.lineCount + 1 ≥ lim)) = false := by
          simp only [Bool.and_eq_false_iff, decide_eq_false_iff_not]
          omega
        simp only [h1, Bool.or_false]
      rw [hstep]
      obtain ⟨hl, hr, hk, ho, hc⟩ := ih
        { lines := s.lines ++ [x], lineCount := s.lineCount + 1, limitReached := false,
          killed := s.killed,
          onLineCalls := s.onLineCalls ++ [(s.lineCount + 1, x)] }
        rfl hlt2 (by show lim ≤ s.lineCount + 1 + xs.length
                     simp only [List.length_cons] at hle; omega)
      obtain ⟨m, hm⟩ : ∃ m, lim - s.lineCount = m + 1 := ⟨lim - s.lineCount - 1, by omega⟩
      have hm2 : lim - (s.lineCount + 1) = m := by omega
      rw [hm, List.take_succ_cons]
      refine ⟨?_, hr, hk, ?_, hc⟩
      · rw [hl, hm2]
        simp
      · rw [ho, hm2]
        simp only [numberFrom, List.append_assoc, List.cons_append, List.nil_append]

/-- C2: when a positive `limit` is set and the stream yields at least that
many lines, the runner kills the child, resolves Success regardless of the
close code, collects exactly the first `limit` lines, and invokes `onLine`
exactly for those lines. -/
theorem runner_limit_truncation (lim : Nat) (stream : List String)
    (closeCode : Option Int) (stderr : String)
    (hpos : 0 < lim) (hlen : lim ≤ stream.length) :
    runAppleScriptModel (some lim) stream closeCode stderr =
      { lines := stream.take lim, exitCode := ExitCodes.SUCCESS, error := none } ∧
    (stream.take lim).length = lim ∧
    (processStream (some lim) stream).killed = true ∧
    (processStream (some lim) stream).onLineCalls = numberFrom 1 (stream.take lim) := by
  have h := foldl_handleLine_reaches_limit lim hpos stream initStreamState rfl hpos
    (by simpa [initStreamState] using hlen)
  obtain ⟨hl, hr, hk, ho, _⟩ := h
  have hproc : processStream (some lim) stream =
      List.foldl (handleLine (some lim))
        { lines := [], lineCount := 0, limitReached := false, killed := false,
          onLineCalls := [] } stream := rfl
  simp only [initStreamState, List.nil_append, Nat.sub_zero, Nat.zero_add] at hl hr hk ho
  refine ⟨?_, ?_, ?_, ?_⟩
  · simp only [runAppleScriptModel, hproc, hr, if_true, hl]
  · rw [List.length_take]
    omega
  · rw [hproc]; exact hk
  · rw [hproc]; exact ho

/-- Witness for C2: limit 2 against a four-line stream with a failing close
code. -/
theorem runner_limit_truncation_witness :
    0 < 2 ∧ 2 ≤ (["a", "b", "c", "d"] : List String).length ∧
    runAppleScriptModel (some 2) ["a", "b", "c", "d"] (some 1) "boom" =
      { lines := (["a", "b", "c", "d"] : List String).take 2,
        exitCode := ExitCodes.SUCCESS, error := none } ∧
    (processStream (some 2) ["a", "b", "c", "d"]).onLineCalls =
      numberFrom 1 ((["a", "b", "c", "d"] : List String).take 2) :=
  ⟨by decide, by decide,
    (runner_limit_truncation 2 ["a", "b", "c", "d"] (some 1) "boom"
      (by decide) (by decide)).1,
    (runner_limit_truncation 2 ["a", "b", "c", "d"] (some 1) "boom"
      (by decide) (by decide)).2.2.2⟩

/- ## Claim C3: the error classifier -/

/-- C3: the classifier is a pure function of the (case-insensitively matched)
diagnostic text with first-match-wins rule order: any permission pattern gives
PermissionDenied even in the presence of availability patterns; otherwise an
availability pattern gives MUSIC_UNAVAILABLE; otherwise APPLESCRIPT_ERROR. -/
theorem detectErrorType_spec (stderr : String) :
    (permissionHit (jsToLowerCase stderr) = true →
      detectErrorType stderr = ExitCodes.PERMISSION_DENIED) ∧
    (permissionHit (jsToLowerCase stderr) = false →
      availabilityHit (jsToLowerCase stderr) = true →
      detectErrorType stderr = ExitCodes.MUSIC_UNAVAILABLE) ∧
    (permissionHit (jsToLowerCase stderr) = false →
      availabilityHit (jsToLowerCase stderr) = false →
      detectErrorType stderr = ExitCodes.APPLESCRIPT_ERROR) := by
  refine ⟨?_, ?_, ?_⟩
  · intro hp
    rw [detectErrorType]
    simp only [hp, if_true]
  · intro hp ha
    rw [detectErrorType]
    simp only [hp, ha, Bool.false_eq_true, if_false, if_true]
  · intro hp ha
    rw [detectErrorType]
    simp only [hp, ha, Bool.false_eq_true, if_false]

/-- Witness for C3: a diagnostic containing both a permission pattern and an
availability pattern classifies as PermissionDenied, an availability-only
diagnostic as MUSIC_UNAVAILABLE, anything else as APPLESCRIPT_ERROR. -/
theorem detectErrorType_spec_witness :
    permissionHit (jsToLowerCase "Not Authorized; connection is invalid") = true ∧
    detectErrorType "Not Authorized; connection is invalid" = ExitCodes.PERMISSION_DENIED ∧
    detectErrorType "the Connection is Invalid" = ExitCodes.MUSIC_UNAVAILABLE ∧
    detectErrorType "mystery" = ExitCodes.APPLESCRIPT_ERROR :=
  ⟨by decide,
    (detectErrorType_spec "Not Authorized; connection is invalid").1 (by decide),
    (detectErrorType_spec "the Connection is Invalid").2.1 (by decide) (by decide),
    (detectErrorType_spec "mystery").2.2 (by decide) (by decide)⟩

/- ## Claim C4: RFC4180 field escaping -/

/-- C4: a field is quote-wrapped with doubled internal quotes exactly when it
contains a comma, double quote, CR or LF, and is emitted verbatim otherwise;
null/absent values escape to the empty string; the spec's concrete example
escapes as required. -/
theorem escapeField_spec (s : String) :
    (needsQuoting s = true ↔
      (',' ∈ s.data ∨ '"' ∈ s.data ∨ '\n' ∈ s.data ∨ '\x0d' ∈ s.data)) ∧
    (needsQuoting s = true →
      escapeField (some s) = "\"" ++ (⟨doubleQuotesChars s.data⟩ : String) ++ "\"") ∧
    (needsQuoting s = false → escapeField (some s) = s) ∧
    escapeField none = "" ∧
    escapeField (some "He said \"hi\", twice") = "\"He said \"\"hi\"\", twice\"" := by
  refine ⟨?_, ?_, ?_, rfl, by decide⟩
  · rw [needsQuoting, List.any_eq_true]
    constructor
    · rintro ⟨c, hc, hor⟩
      simp only [Bool.or_eq_true, decide_eq_true_iff] at hor
      rcases hor with ((rfl | rfl) | rfl) | rfl
      · exact Or.inr (Or.inl hc)
      · exact Or.inl hc
      · exact Or.inr (Or.inr (Or.inl hc))
      · exact Or.inr (Or.inr (Or.inr hc))
    · rintro (hc | hc | hc | hc) <;> exact ⟨_, hc, by simp⟩
  · intro h
    rw [escapeField]
    simp only [h, if_true]
  · intro h
    rw [escapeField]
    simp only [h, Bool.false_eq_true, if_false]

/-- Witness for C4: both branches of the escaping condition at concrete
fields. -/
theorem escapeField_spec_witness :
    needsQuoting "a,b" = true ∧
    escapeField (some "a,b") = "\"" ++ (⟨doubleQuotesChars "a,b".data⟩ : String) ++ "\"" ∧
    needsQuoting "ab" = false ∧
    escapeField (some "ab") = "ab" :=
  ⟨by decide, (escapeField_spec "a,b").2.1 (by decide), by decide,
    (escapeField_spec "ab").2.2.1 (by decide)⟩

/- ## Claim C5: the record parser is total -/

/-- The positional-default reading of a list equals truncation plus padding. -/
theorem range_fieldAt_eq_padTruncate : ∀ (parts : List String) (k : Nat),
    (List.range k).map (fieldAt parts) = padTruncate k parts := by
  intro parts
  induction parts with
  | nil =>
    intro k
    rw [padTruncate]
    simp only [List.take_nil, List.length_nil, Nat.sub_zero, List.nil_append]
    rw [List.eq_replicate_iff]
    refine ⟨by simp, ?_⟩
    intro b hb
    obtain ⟨i, _, hi⟩ := List.mem_map.mp hb
    rw [← hi]
    rfl
  | cons p ps ih =>
    intro k
    cases k with
    | zero => simp [padTruncate]
    | succ k =>
      rw [List.range_succ_eq_map, List.map_cons, List.map_map]
      have h1 : fieldAt (p :: ps) 0 = p := by simp [fieldAt]
      have h2 : (fieldAt (p :: ps) ∘ Nat.succ) = fieldAt ps := by
        funext i
        rw [Function.comp_apply, fieldAt, fieldAt, List.getElem?_cons_succ]
      rw [h1, h2, ih k, padTruncate, padTruncate, List.take_succ_cons]
      simp only [List.length_cons, List.cons_append]
      rw [Nat.succ_sub_succ]

/-- C5: the record parser is a total function producing exactly `k` fields:
missing trailing fields default to the empty string, fields beyond the
expected count are dropped, and the track / playlist-track record builders
are its 4- and 3-field instances. -/
theorem record_parser_total (line : String) (k : Nat) :
    (parseFields line k).length = k ∧
    parseFields line k = padTruncate k (splitRecordLine line) ∧
    [(parseTrackLine line).title, (parseTrackLine line).artist,
      (parseTrackLine line).albumArtist, (parseTrackLine line).album] =
      parseFields line 4 ∧
    [(parsePlaylistTrackLine line).playlist, (parsePlaylistTrackLine line).track,
      (parsePlaylistTrackLine line).artist] = parseFields line 3 := by
  refine ⟨?_, range_fieldAt_eq_padTruncate _ k, ?_, ?_⟩
  · rw [parseFields, List.length_map, List.length_range]
  · rfl
  · rfl

/- ## Claim C8: CSV round-trip -/

/-- Consuming an unquoted field body: characters free of commas and quotes are
accumulated verbatim in state 0. -/
theorem csvSplitAux_clean (s : List Char) : ∀ (rest field : List Char) (acc : List String),
    (∀ c ∈ s, c ≠ ',' ∧ c ≠ '"') →
    csvSplitAux (s ++ rest) 0 field acc = csvSplitAux rest 0 (field ++ s) acc := by
  induction s with
  | nil => intro rest field acc _; simp
  | cons c s ih =>
    intro rest field acc h
    have hc := h c (List.mem_cons_self _ _)
    rw [List.cons_append, csvSplitAux]
    rw [if_neg (by decide : ¬(0 : Nat) = 1), if_neg (by decide : ¬(0 : Nat) = 2),
      if_neg hc.1, if_neg hc.2]
    rw [ih rest (field ++ [c]) acc (fun u hu => h u (List.mem_cons_of_mem _ hu))]
    simp [List.append_assoc]

/-- Consuming a quoted field body: the quote-doubled image of `s` read in
state 1 accumulates exactly `s`. -/
theorem csvSplitAux_quoted (s : List Char) : ∀ (rest field : List Char) (acc : List String),
    csvSplitAux (doubleQuotesChars s ++ rest) 1 field acc =
      csvSplitAux rest 1 (field ++ s) acc := by
  induction s with
  | nil => intro rest field acc; simp [doubleQuotesChars]
  | cons c s ih =>
    intro rest field acc
    by_cases hc : c = '"'
    · subst hc
      have hdq : doubleQuotesChars ('"' :: s) = '"' :: '"' :: doubleQuotesChars s := by
        simp [doubleQuotesChars]
      rw [hdq, List.cons_append, List.cons_append, csvSplitAux]
      rw [if_pos rfl, if_pos rfl, csvSplitAux]
      rw [if_neg (by decide : ¬(2 : Nat) = 1), if_pos rfl, if_pos rfl]
      rw [ih rest (field ++ ['"']) acc]
      simp [List.append_assoc]
    · have hdq : doubleQuotesChars (c :: s) = c :: doubleQuotesChars s := by
        simp [doubleQuotesChars, hc]
      rw [hdq, List.cons_append, csvSplitAux]
      rw [if_pos rfl, if_neg hc]
      rw [ih rest (field ++ [c]) acc]
      simp [List.append_assoc]

/-- A non-quoted field has no commas or quotes. -/
theorem clean_of_not_needsQuoting {f : String} (h : needsQuoting f = false) :
    ∀ c ∈ f.data, c ≠ ',' ∧ c ≠ '"' := by
  intro c hc
  rw [needsQuoting, List.any_eq_false] at h
  have := h c hc
  simp only [Bool.or_eq_true, decide_eq_true_iff, not_or] at this
  obtain ⟨⟨⟨hquote, hcomma⟩, _⟩, _⟩ := this
  exact ⟨hcomma, hquote⟩

/-- Splitting the comma-join of escaped fields recovers the fields. -/
theorem csvSplitAux_fields (fs : List String) : ∀ (f : String) (acc : List String),
    csvSplitAux (joinSep "," ((f :: fs).map (fun g => escapeField (some g)))).data 0 [] acc =
      acc ++ f :: fs := by
  induction fs with
  | nil =>
    intro f acc
    have hjoin : joinSep "," ([f].map (fun g => escapeField (some g))) =
        escapeField (some f) := rfl
    rw [hjoin]
    by_cases hq : needsQuoting f = true
    · have hesc : escapeField (some f) = "\"" ++ (⟨doubleQuotesChars f.data⟩ : String) ++ "\"" := by
        rw [escapeField]
        simp only [hq, if_true]
      rw [hesc]
      have hdata : ("\"" ++ (⟨doubleQuotesChars f.data⟩ : String) ++ "\"").data =
          '"' :: (doubleQuotesChars f.data ++ ['"']) := by
        rw [String.data_append, String.data_append]
        rfl
      rw [hdata, csvSplitAux]
      rw [if_neg (by decide : ¬(0 : Nat) = 1), if_neg (by decide : ¬(0 : Nat) = 2),
        if_neg (by decide : ¬('"' = ',')), if_pos rfl]
      rw [csvSplitAux_quoted f.data ['"'] [] acc, csvSplitAux]
      rw [if_pos rfl, if_pos rfl, csvSplitAux]
      rfl
    · have hq2 : needsQuoting f = false := by
        cases hnq : needsQuoting f
        · rfl
        · exact absurd hnq hq
      have hesc : escapeField (some f) = f := by
        rw [escapeField]
        simp only [hq2, Bool.false_eq_true, if_false]
      rw [hesc]
      have hnil : f.data = f.data ++ [] := by simp
      rw [show csvSplitAux f.data 0 [] acc = csvSplitAux (f.data ++ []) 0 [] acc by rw [← hnil]]
      rw [csvSplitAux_clean f.data [] [] acc (clean_of_not_needsQuoting hq2), csvSplitAux]
      rfl
  | cons g gs ih =>
    intro f acc
    have hjoin : joinSep "," ((f :: g :: gs).map (fun u => escapeField (some u))) =
        escapeField (some f) ++ "," ++
          joinSep "," ((g :: gs).map (fun u => escapeField (some u))) := rfl
    rw [hjoin]
    set b := joinSep "," ((g :: gs).map (fun u => escapeField (some u))) with hb
    by_cases hq : needsQuoting f = true
    · have hesc : escapeField (some f) = "\"" ++ (⟨doubleQuotesChars f.data⟩ : String) ++ "\"" := by
        rw [escapeField]
        simp only [hq, if_true]
      have hdata : (escapeField (some f) ++ "," ++ b).data =
          '"' :: (doubleQuotesChars f.data ++ ('"' :: ',' :: b.data)) := by
        rw [hesc, String.data_append, String.data_append, String.data_append,
          String.data_append]
        simp
      rw [hdata, csvSplitAux]
      rw [if_neg (by decide : ¬(0 : Nat) = 1), if_neg (by decide : ¬(0 : Nat) = 2),
        if_neg (by decide : ¬('"' = ',')), if_pos rfl]
      rw [csvSplitAux_quoted f.data ('"' :: ',' :: b.data) [] acc, csvSplitAux]
      rw [if_pos rfl, if_pos rfl, csvSplitAux]
      rw [if_neg (by decide : ¬(2 : Nat) = 1), if_pos rfl,
        if_neg (by decide : ¬(',' = '"')), if_pos rfl]
      have := ih g (acc ++ [(⟨[] ++ f.data⟩ : String)])
      rw [this]
      simp
    · have hq2 : needsQuoting f = false := by
        cases hnq : needsQuoting f
        · rfl
        · exact absurd hnq hq
      have hesc : escapeField (some f) = f := by
        rw [escapeField]
        simp only [hq2, Bool.false_eq_true, if_false]
      have hdata : (escapeField (some f) ++ "," ++ b).data = f.data ++ (',' :: b.data) := by
        rw [hesc, String.data_append, String.data_append]
        simp
      rw [hdata, csvSplitAux_clean f.data (',' :: b.data) [] acc (clean_of_not_needsQuoting hq2),
        csvSplitAux]
      rw [if_neg (by decide : ¬(0 : Nat) = 1), if_neg (by decide : ¬(0 : Nat) = 2),
        if_pos rfl]
      have := ih g (acc ++ [(⟨[] ++ f.data⟩ : String)])
      rw [this]
      simp

/-- Escaping treats an absent field like the empty string. -/
theorem escapeField_getD (v : Option String) :
    escapeField v = escapeField (some (v.getD "")) := by
  cases v with
  | none => decide
  | some s => rfl

/-- C8: the multi-column serializer emits one comma-joined line of escaped
fields per record after the header line, and re-splitting any data line on
commas with RFC4180 quoting recovers every original field value exactly. -/
theorem csv_round_trip (headers : List String) (rows : List RowObj) (row : RowObj) :
    generateMultiColumnCSV rows headers =
      joinSep "\n" ((joinSep "," (headers.map (fun h => escapeField (some h)))) ::
        rows.map (rowLine headers)) ++ "\n" ∧
    (headers ≠ [] →
      csvSplitLine (rowLine headers row) = headers.map (fun h => (row h).getD "")) := by
  refine ⟨rfl, ?_⟩
  intro hne
  cases headers with
  | nil => exact absurd rfl hne
  | cons h hs =>
    rw [rowLine, csvSplitLine]
    have hmap : (h :: hs).map (fun h2 => escapeField (row h2)) =
        ((h :: hs).map (fun h2 => (row h2).getD "")).map (fun g => escapeField (some g)) := by
      rw [List.map_map]
      exact List.map_congr_left (fun a _ => escapeField_getD (row a))
    rw [hmap]
    have hf := csvSplitAux_fields (hs.map (fun h2 => (row h2).getD ""))
      ((row h).getD "") []
    simp only [List.map_cons] at hf ⊢
    rw [hf]
    simp

/-- Witness for C8 on concrete headers and a record with a comma-bearing
field. -/
theorem csv_round_trip_witness :
    ((["x", "y"] : List String) ≠ []) ∧
    csvSplitLine (rowLine ["x", "y"]
        (fun h => if h = "x" then some "He said \"hi\", twice" else none)) =
      (["x", "y"] : List String).map
        (fun h => ((if h = "x" then some "He said \"hi\", twice" else none : Option String)).getD "") :=
  ⟨by decide,
    (csv_round_trip ["x", "y"] []
      (fun h => if h = "x" then some "He said \"hi\", twice" else none)).2 (by decide)⟩

/- ## Claim C9: album-artist fallback -/

/-- `add` never removes keys. -/
theorem add_keys_mono (n : Normalizer) (v : String) :
    ∀ k ∈ n.seen.map Prod.fst, k ∈ ((n.add v).2).seen.map Prod.fst := by
  intro k hk
  rw [Normalizer.add]
  by_cases hv : procValue n.noTrim v = ""
  · simp only [hv, if_pos rfl]
    exact hk
  · simp only [if_neg hv]
    cases hl : n.seen.lookup (jsToLowerCase (procValue n.noTrim v)) with
    | some d => exact hk
    | none =>
      simp only [List.map_append, List.mem_append]
      exact Or.inl hk

/-- After a non-empty `add`, the processed value's key is present. -/
theorem add_key_mem (n : Normalizer) (v : String) (h : procValue n.noTrim v ≠ "") :
    jsToLowerCase (procValue n.noTrim v) ∈ ((n.add v).2).seen.map Prod.fst := by
  rw [Normalizer.add]
  simp only [if_neg h]
  cases hl : n.seen.lookup (jsToLowerCase (procValue n.noTrim v)) with
  | some d => exact mem_keys_of_lookup_eq_some hl
  | none =>
    simp only [List.map_append, List.mem_append]
    exact Or.inr (by simp)

/-- One loop iteration of `normalizeArtistsFromTracks` never removes keys. -/
theorem artistsStep_keys_mono (fb : Bool) (n : Normalizer) (t : Track) :
    ∀ k ∈ n.seen.map Prod.fst, k ∈ (artistsStep fb n t).seen.map Prod.fst := by
  intro k hk
  rw [artistsStep]
  by_cases ha : chooseArtist fb t = ""
  · simp only [ha, if_pos rfl]
    exact hk
  · simp only [if_neg ha]
    exact add_keys_mono n _ k hk

/-- Keys survive the rest of the loop. -/
theorem foldl_artistsStep_keys_mono (fb : Bool) (ts : List Track) :
    ∀ (n : Normalizer) (k : String), k ∈ n.seen.map Prod.fst →
    k ∈ (ts.foldl (artistsStep fb) n).seen.map Prod.fst := by
  induction ts with
  | nil => intro n k hk; exact hk
  | cons t ts ih =>
    intro n k hk
    rw [List.foldl_cons]
    exact ih _ k (artistsStep_keys_mono fb n t k hk)

/-- Invariant of every reachable normalizer state: each stored key is the
case-fold of its display value. -/
def NormKeyInv (n : Normalizer) : Prop :=
  ∀ p ∈ n.seen, p.1 = jsToLowerCase p.2

/-- `add` preserves the key invariant. -/
theorem add_preserves_inv (n : Normalizer) (v : String) (h : NormKeyInv n) :
    NormKeyInv ((n.add v).2) := by
  rw [Normalizer.add]
  by_cases hv : procValue n.noTrim v = ""
  · simp only [hv, if_pos rfl]
    exact h
  · simp only [if_neg hv]
    cases hl : n.seen.lookup (jsToLowerCase (procValue n.noTrim v)) with
    | some d => exact h
    | none =>
      intro p hp
      simp only [List.mem_append, List.mem_singleton] at hp
      rcases hp with hp | rfl
      · exact h p hp
      · rfl

/-- The loop of `normalizeArtistsFromTracks` preserves the key invariant. -/
theorem foldl_artistsStep_inv (fb : Bool) (ts : List Track) :
    ∀ n : Normalizer, NormKeyInv n → NormKeyInv (ts.foldl (artistsStep fb) n) := by
  induction ts with
  | nil => intro n h; exact h
  | cons t ts ih =>
    intro n h
    rw [List.foldl_cons]
    refine ih _ ?_
    rw [artistsStep]
    by_cases ha : chooseArtist fb t = ""
    · simp only [ha, if_pos rfl]
      exact h
    · simp only [if_neg ha]
      exact add_preserves_inv n _ h

/-- A present key yields an output display value with that case-fold. -/
theorem exists_display (n : Normalizer) (k : String) (hinv : NormKeyInv n)
    (hk : k ∈ n.seen.map Prod.fst) :
    ∃ d ∈ n.getUniqueValues, jsToLowerCase d = k := by
  obtain ⟨p, hp, hfst⟩ := List.mem_map.mp hk
  refine ⟨p.2, ?_, by rw [← (hinv p hp), hfst]⟩
  rw [Normalizer.getUniqueValues]
  have hval : p.2 ∈ n.seen.map Prod.snd := List.mem_map_of_mem Prod.snd hp
  cases hs : n.sort
  · simpa using hval
  · simp only [if_pos rfl]
    exact List.mem_mergeSort.mpr hval

/-- The processed form of "Various Artists" under either trim mode. -/
theorem procValue_VA (noTrim : Bool) :
    procValue noTrim "Various Artists" = "Various Artists" := by
  cases noTrim
  · simp only [procValue, Bool.false_eq_true, if_false]
    decide
  · rfl

/-- C9 (amended): for a record whose artist field is blank after trimming and
whose album artist is "Various Artists": with the fallback enabled the
normalized output contains a display value whose case-fold is
"various artists" (and for the single-record list it is exactly
"Various Artists"); with the fallback disabled the record leaves the
normalizer state unchanged whenever trimming is active or the artist field is
exactly empty. -/
theorem artists_fallback (tracks : List Track) (options : ArtistOptions) (t : Track)
    (hmem : t ∈ tracks) (hblank : jsTrim t.artist = "")
    (hVA : t.albumArtist = "Various Artists") :
    (options.fallbackAlbumArtist = true →
      ∃ d ∈ normalizeArtistsFromTracks tracks options,
        jsToLowerCase d = "various artists") ∧
    (∀ n : Normalizer, n.noTrim = false ∨ t.artist = "" →
      artistsStep false n t = n) ∧
    (options.fallbackAlbumArtist = true →
      normalizeArtistsFromTracks [t] options = ["Various Artists"]) := by
  have hchoose : chooseArtist true t = "Various Artists" := by
    rw [chooseArtist, if_pos ⟨rfl, Or.inr hblank⟩, hVA]
  have hstep : ∀ n : Normalizer, artistsStep true n t = (n.add "Various Artists").2 := by
    intro n
    rw [artistsStep, hchoose, if_neg (by decide : ¬("Various Artists" : String) = "")]
  refine ⟨?_, ?_, ?_⟩
  · intro hfb
    obtain ⟨pre, post, hsplit⟩ := List.append_of_mem hmem
    rw [normalizeArtistsFromTracks, hfb, hsplit, List.foldl_append, List.foldl_cons]
    set n0 := createNormalizer { noTrim := options.noTrim, sort := options.sort } with hn0
    set n1 := pre.foldl (artistsStep true) n0 with hn1
    have hkey : "various artists" ∈ ((artistsStep true n1 t).seen.map Prod.fst) := by
      rw [hstep n1]
      have h1 : procValue n1.noTrim "Various Artists" ≠ "" := by
        rw [procValue_VA]
        decide
      have h2 := add_key_mem n1 "Various Artists" h1
      rw [procValue_VA] at h2
      have h3 : jsToLowerCase "Various Artists" = "various artists" := by decide
      rwa [h3] at h2
    have hfinal := foldl_artistsStep_keys_mono true post (artistsStep true n1 t)
      "various artists" hkey
    have hinv : NormKeyInv (post.foldl (artistsStep true) (artistsStep true n1 t)) := by
      refine foldl_artistsStep_inv true post _ ?_
      rw [hstep n1]
      refine add_preserves_inv n1 _ ?_
      rw [hn1]
      refine foldl_artistsStep_inv true pre _ ?_
      intro p hp
      exact absurd hp (List.not_mem_nil p)
    exact exists_display _ _ hinv hfinal
  · intro n hcase
    rw [artistsStep]
    have hchoose0 : chooseArtist false t = t.artist := by
      rw [chooseArtist, if_neg]
      rintro ⟨hf, _⟩
      exact Bool.false_ne_true hf
    rw [hchoose0]
    rcases hcase with hnt | hempty
    · by_cases ha : t.artist = ""
      · rw [if_pos ha]
      · rw [if_neg ha, Normalizer.add]
        have hpv : procValue n.noTrim t.artist = "" := by
          rw [hnt, procValue]
          simp only [Bool.false_eq_true, if_false]
          exact hblank
        simp [hpv]
    · rw [if_pos hempty]
  · intro hfb
    rw [normalizeArtistsFromTracks, hfb, List.foldl_cons, List.foldl_nil, hstep]
    have hadd : ((createNormalizer { noTrim := options.noTrim, sort := options.sort }).add
        "Various Artists").2 =
        { noTrim := options.noTrim, sort := options.sort,
          seen := [("various artists", "Various Artists")] } := by
      rw [Normalizer.add]
      have hp : procValue (createNormalizer
          { noTrim := options.noTrim, sort := options.sort }).noTrim "Various Artists" =
          "Various Artists" := procValue_VA _
      rw [hp]
      simp only [if_neg (by decide : ¬("Various Artists" : String) = "")]
      have hkey : jsToLowerCase "Various Artists" = "various artists" := by decide
      have hlook : (createNormalizer { noTrim := options.noTrim, sort := options.sort }).seen.lookup
          (jsToLowerCase "Various Artists") = none := rfl
      rw [hlook]
      simp [createNormalizer, hkey]
    rw [hadd, Normalizer.getUniqueValues]
    cases hs : options.sort
    · simp
    · simp only [if_pos rfl, List.map_cons, List.map_nil]
      exact List.mergeSort_of_sorted (List.pairwise_singleton _ _)

/-- First track of the C9 counterexample: an artist field already cased as
"Various artists". -/
def trackVA1 : Track :=
  { title := "", artist := "Various artists", albumArtist := "", album := "" }

/-- Second track of the C9 counterexample and of the spec scenario: a blank
artist with album artist "Various Artists". -/
def trackVA2 : Track :=
  { title := "", artist := "", albumArtist := "Various Artists", album := "" }

/-- Counterexample to C9 as stated: with the fallback enabled, a record with a
blank artist and album artist "Various Artists" does not put the exact string
"Various Artists" into the normalized set when an earlier record already
claimed the case-folded key with different casing. -/
theorem artists_fallback_counterexample :
    jsTrim trackVA2.artist = "" ∧ trackVA2.albumArtist = "Various Artists" ∧
    "Various Artists" ∉ normalizeArtistsFromTracks [trackVA1, trackVA2]
      { fallbackAlbumArtist := true, noTrim := false, sort := false } := by
  decide

/-- Witness for C9 (amended) on the spec's single-record scenario. -/
theorem artists_fallback_witness :
    trackVA2 ∈ [trackVA2] ∧ jsTrim trackVA2.artist = "" ∧
    trackVA2.albumArtist = "Various Artists" ∧
    normalizeArtistsFromTracks [trackVA2]
      { fallbackAlbumArtist := true, noTrim := false, sort := false } = ["Various Artists"] :=
  ⟨by decide, by decide, by decide,
    (artists_fallback [trackVA2]
      { fallbackAlbumArtist := true, noTrim := false, sort := false } trackVA2
      (by decide) (by decide) (by decide)).2.2 rfl⟩

/- ## Claim C10: header formatting and header-free terminal output -/

/-- `join` splits off its head when more elements follow. -/
theorem joinSep_cons_of_ne_nil (sep x : String) (ys : List String) (h : ys ≠ []) :
    joinSep sep (x :: ys) = x ++ sep ++ joinSep sep ys := by
  cases ys with
  | nil => exact absurd rfl h
  | cons y ys => rfl

/-- C10: headers written to file output are formatted by splitting on
underscores, capitalizing each token and rejoining with spaces (so
`album_artist` becomes `Album Artist`); file output is exactly that formatted
header line prepended to the header-free data, and the colorized terminal
output consists solely of one line per record — no header row. -/
theorem header_formatting (h : String) (values : List String) (rows : List RowObj)
    (headers : List String) (color : String → String → String) (sep : String) :
    formatHeader h = joinSep " " ((jsSplit h "_").map capitalize) ∧
    formatHeader "album_artist" = "Album Artist" ∧
    (values ≠ [] →
      generateSingleColumnCSVF values h =
        formatHeader h ++ "\n" ++ generateSingleColumnData values) ∧
    (rows ≠ [] →
      generateMultiColumnCSVF rows headers =
        joinSep "," (headers.map (fun h2 => escapeField (some (formatHeader h2)))) ++ "\n" ++
          generateMultiColumnData rows headers) ∧
    generateColorizedMultiColumn color sep rows headers =
      joinSep "\n" (rows.map (colorRow color sep headers)) ++ "\n" := by
  refine ⟨rfl, by decide, ?_, ?_, rfl⟩
  · intro hne
    rw [generateSingleColumnCSVF, generateSingleColumnData]
    have hmapne : values.map (fun v => escapeField (some v)) ≠ [] := by
      simpa using hne
    rw [joinSep_cons_of_ne_nil _ _ _ hmapne]
    simp [String.append_assoc]
  · intro hne
    rw [generateMultiColumnCSVF, generateMultiColumnData]
    have hmapne : rows.map (rowLine headers) ≠ [] := by
      simpa using hne
    rw [joinSep_cons_of_ne_nil _ _ _ hmapne]
    simp [String.append_assoc]

/-- Witness for C10 at concrete values and rows. -/
theorem header_formatting_witness :
    ((["v"] : List String) ≠ []) ∧
    generateSingleColumnCSVF ["v"] "album_artist" =
      formatHeader "album_artist" ++ "\n" ++ generateSingleColumnData ["v"] ∧
    (([fun _ => some "v"] : List RowObj) ≠ []) ∧
    generateMultiColumnCSVF [fun _ => some "v"] ["album_artist"] =
      joinSep "," ((["album_artist"] : List String).map
        (fun h2 => escapeField (some (formatHeader h2)))) ++ "\n" ++
        generateMultiColumnData [fun _ => some "v"] ["album_artist"] :=
  ⟨by decide,
    (header_formatting "album_artist" ["v"] [] [] (fun _ s => s) "").2.2.1 (by decide),
    List.cons_ne_nil _ _,
    (header_formatting "" [] [fun _ => some "v"] ["album_artist"]
      (fun _ s => s) "").2.2.2.1 (List.cons_ne_nil _ _)⟩
